import Mathlib

/-!
Verification of the Protocol Buffers tag scanner (src/protobuf.c).

The embedding models the tokenizer (`nextToken` over the `cppGetc` stream),
the resynchronizing dispatch loop (`findProtobufTags`), the statement
parsers (`parseStatement`, `parseEnumConstants`, `skipUntil`) and the kind
table (`ProtobufKinds`).  The character stream is a `List Char`; the loops
are written with explicit fuel (structural recursion) together with a
decreasing measure `mu` proving that the canonical fuel `input.length + 2`
always suffices.  A second, instrumented model of the character supplier
(`CppState`, one slot of pushback capacity that fails on a double unget)
is used for the pushback-discipline claim.
-/

namespace Protobuf

/-- Mirrors `protobufKind` of src/protobuf.c (PK_PACKAGE .. PK_RPC). -/
inductive protobufKind where
  | package
  | message
  | field
  | enumerator
  | enum
  | service
  | rpc
deriving DecidableEq, Repr

/-- Mirrors `kindOption` entries: enabled flag, letter, name, plural label. -/
structure kindOption where
  enabled : Bool
  letter : Char
  name : String
  plural : String
deriving DecidableEq, Repr

/-- The `ProtobufKinds` table of src/protobuf.c, in declaration order. -/
def ProtobufKinds : List kindOption :=
  [⟨true, 'p', "package", "packages"⟩,
   ⟨true, 'm', "message", "messages"⟩,
   ⟨true, 'f', "field", "fields"⟩,
   ⟨true, 'e', "enumerator", "enum constants"⟩,
   ⟨true, 'g', "enum", "enum types"⟩,
   ⟨true, 's', "service", "services"⟩,
   ⟨false, 'r', "rpc", "RPC methods"⟩]

/-- Numeric value of each `protobufKind` enumerator (its table index). -/
def kindIndex : protobufKind → Nat
  | protobufKind.package => 0
  | protobufKind.message => 1
  | protobufKind.field => 2
  | protobufKind.enumerator => 3
  | protobufKind.enum => 4
  | protobufKind.service => 5
  | protobufKind.rpc => 6

/-- `ProtobufKinds [kind]` lookup. -/
def kindOptionOf (k : protobufKind) : kindOption :=
  (ProtobufKinds).getD (kindIndex k) ⟨false, '?', "", ""⟩

/-- The enabled flags exactly as initialised in the `ProtobufKinds` table
(every kind enabled except Rpc). -/
def defaultEnabled (k : protobufKind) : Bool := (kindOptionOf k).enabled

/-- Kind registry state with every kind enabled. -/
def allEnabled : protobufKind → Bool := fun _ => true

/-- Token classification: `TOKEN_EOF`, `TOKEN_ID`, or a punctuation
character stored in `token.type`. -/
inductive TokenType where
  | eof
  | id
  | punct (c : Char)
deriving DecidableEq, Repr

/-- The state of one parse run: the characters not yet consumed by
`cppGetc` (a pushed-back character sits at the head), and the global
`token` record (`token.type`, `token.value`). -/
structure PState where
  input : List Char
  tokType : TokenType
  tokValue : String
deriving DecidableEq, Repr

/-- The five punctuation characters recognised by `nextToken`. -/
def isPunctChar (c : Char) : Bool :=
  c = '{' || c = '}' || c = ';' || c = '.' || c = '='

/-- `isalnum (c) || c == '_'`: identifier constituent characters. -/
def isIdentChar (c : Char) : Bool := c.isAlphanum || c = '_'

/-- The identifier accumulation loop of `nextToken`: append while the
character is an identifier constituent; the non-matching character (the
head of the returned list) is pushed back to the supplier. -/
def scanId : List Char → String → String × List Char
  | [], acc => (acc, [])
  | c :: rest, acc =>
    if isIdentChar c then scanId rest (acc.push c) else (acc, c :: rest)

/-- `nextToken` of src/protobuf.c as a function of the remaining input and
the current `token.value` buffer: a non-positive character (stream
exhaustion, or a NUL character, per `c <= 0`) gives `TOKEN_EOF`; one of
`{ } ; . =` gives that punctuation token; an identifier constituent starts
identifier accumulation; anything else is skipped. -/
def nt : List Char → String → TokenType × String × List Char
  | [], v => (TokenType.eof, v, [])
  | c :: rest, v =>
    if c.toNat = 0 then (TokenType.eof, v, rest)
    else if isPunctChar c then (TokenType.punct c, v, rest)
    else if isIdentChar c then
      (TokenType.id, (scanId rest (String.mk [c])).1, (scanId rest (String.mk [c])).2)
    else nt rest v

/-- `nextToken` acting on the whole parse state. -/
def nextToken (s : PState) : PState :=
  ⟨(nt s.input s.tokValue).2.2, (nt s.input s.tokValue).1, (nt s.input s.tokValue).2.1⟩

/-- `strchr (punctuation, token.type) != NULL` for a non-EOF token
(`TOKEN_ID` is the character 'i'). -/
def tokenInSet (stop : List Char) : TokenType → Bool
  | TokenType.eof => false
  | TokenType.id => stop.contains 'i'
  | TokenType.punct c => stop.contains c

/-- `skipUntil`: advance until EOF or a token in `stop`.  Fueled. -/
def skipUntilF : Nat → List Char → PState → Option PState
  | 0, _, _ => none
  | f + 1, stop, s =>
    if s.tokType = TokenType.eof then some s
    else if tokenInSet stop s.tokType then some s
    else skipUntilF f stop (nextToken s)

/-- `tokenIsKeyword`: current token is an identifier with exactly this text. -/
def tokenIsKeyword (s : PState) (kw : String) : Prop :=
  s.tokType = TokenType.id ∧ s.tokValue = kw

instance (s : PState) (kw : String) : Decidable (tokenIsKeyword s kw) :=
  inferInstanceAs (Decidable (s.tokType = TokenType.id ∧ s.tokValue = kw))

/-- An emitted symbol record: name and kind. -/
structure Tag where
  name : String
  kind : protobufKind
deriving DecidableEq, Repr

/-- `createProtobufTag`: emit one record if the kind's enabled flag is set,
otherwise emit nothing.  `en` is the registry's enabled-flag state. -/
def createProtobufTag (en : protobufKind → Bool) (name : String) (kind : protobufKind) :
    List Tag :=
  if en kind then [⟨name, kind⟩] else []

/-- The conditional step at the top of the `parseEnumConstants` loop body:
on an identifier that is not the keyword `option`, advance, and if the new
token is `=`, emit an enumerator record named by `token.value` (which the
intervening `nextToken` left untouched, since `=` is punctuation). -/
def pecBodyStep (en : protobufKind → Bool) (s : PState) : PState × List Tag :=
  if s.tokType = TokenType.id ∧ ¬ tokenIsKeyword s "option" then
    (fun s2 =>
      if s2.tokType = TokenType.punct '=' then
        (s2, createProtobufTag en s2.tokValue protobufKind.enumerator)
      else (s2, []))
    (nextToken s)
  else (s, [])

/-- The `while (token.type != TOKEN_EOF && token.type != '}')` loop of
`parseEnumConstants`.  Fueled; inner helpers receive the undiminished fuel,
the recursive call one unit less. -/
def pecLoopF (en : protobufKind → Bool) : Nat → PState → Option (PState × List Tag)
  | 0, _ => none
  | f + 1, s =>
    if s.tokType = TokenType.eof ∨ s.tokType = TokenType.punct '}' then some (s, [])
    else
      (skipUntilF (f + 1) [';', '}'] (pecBodyStep en s).1).bind (fun s2 =>
        (pecLoopF en f (if s2.tokType = TokenType.punct ';' then nextToken s2 else s2)).map
          (fun r => (r.1, (pecBodyStep en s).2 ++ r.2)))

/-- `parseEnumConstants`: requires `{`, otherwise returns at once. -/
def parseEnumConstantsF (en : protobufKind → Bool) (f : Nat) (s : PState) :
    Option (PState × List Tag) :=
  if s.tokType = TokenType.punct '{' then pecLoopF en f (nextToken s) else some (s, [])

/-- The dotted-type-path `do … while (token.type == '.')` loop of
`parseStatement` for kind Field.  The Bool is `true` when the loop fell
through normally and `false` on the early `return` (non-identifier where
an identifier was expected). -/
def parseFieldTypeLoopF : Nat → PState → Option (PState × Bool)
  | 0, _ => none
  | f + 1, s =>
    (fun s1 =>
      if s1.tokType = TokenType.id then
        (fun s2 =>
          if s2.tokType = TokenType.punct '.' then parseFieldTypeLoopF f s2
          else some (s2, true))
        (nextToken s1)
      else some (s1, false))
    (if s.tokType = TokenType.punct '.' then nextToken s else s)

/-- `parseStatement (kind)`: consume the keyword, for Field skip the
(possibly dotted) type, expect the name identifier, emit, advance, and for
Enum parse the enum body. -/
def parseStatementF (en : protobufKind → Bool) (f : Nat) (kind : protobufKind) (s : PState) :
    Option (PState × List Tag) :=
  (fun s0 =>
    (if kind = protobufKind.field then parseFieldTypeLoopF f s0 else some (s0, true)).bind
      (fun r =>
        if r.2 = false then some (r.1, [])
        else if r.1.tokType = TokenType.id then
          (fun s2 =>
            if kind = protobufKind.enum then
              (parseEnumConstantsF en f s2).map
                (fun q => (q.1, createProtobufTag en r.1.tokValue kind ++ q.2))
            else some (s2, createProtobufTag en r.1.tokValue kind))
          (nextToken r.1)
        else some (r.1, [])))
  (nextToken s)

/-- The keyword-dispatch chain of `findProtobufTags`, in source order. -/
def keywordOf (s : PState) : Option protobufKind :=
  if tokenIsKeyword s "package" then some protobufKind.package
  else if tokenIsKeyword s "message" then some protobufKind.message
  else if tokenIsKeyword s "enum" then some protobufKind.enum
  else if tokenIsKeyword s "repeated" ∨ tokenIsKeyword s "optional" ∨
      tokenIsKeyword s "required" then some protobufKind.field
  else if tokenIsKeyword s "service" then some protobufKind.service
  else if tokenIsKeyword s "rpc" then some protobufKind.rpc
  else none

/-- The `while (token.type != TOKEN_EOF)` loop of `findProtobufTags`:
dispatch on the keyword, then unconditionally resynchronise
(`skipUntil (";{}")` followed by `nextToken`). -/
def fptLoopF (en : protobufKind → Bool) : Nat → PState → Option (PState × List Tag)
  | 0, _ => none
  | f + 1, s =>
    if s.tokType = TokenType.eof then some (s, [])
    else
      (match keywordOf s with
        | some k => parseStatementF en (f + 1) k s
        | none => some (s, [])).bind (fun r =>
        (skipUntilF (f + 1) [';', '{', '}'] r.1).bind (fun s2 =>
          (fptLoopF en f (nextToken s2)).map (fun q : PState × List Tag => (q.1, r.2 ++ q.2))))

/-- Initial state of a run: the raw input, a leftover token type in the
static `token` struct, and the fresh empty `token.value` buffer. -/
def initState (t0 : TokenType) (input : List Char) : PState := ⟨input, t0, ""⟩

/-- Canonical fuel: the run consumes at least one character per loop
iteration, so the input length plus a constant always suffices. -/
def protoFuel (input : List Char) : Nat := input.length + 2

/-- `findProtobufTags`: the parse entry point.  Returns the final state and
the ordered list of emitted records; `none` only on fuel exhaustion, which
`fptLoopF_total` rules out for the canonical fuel. -/
def findProtobufTags (en : protobufKind → Bool) (input : List Char) :
    Option (PState × List Tag) :=
  fptLoopF en (protoFuel input) (nextToken (initState TokenType.eof input))

/-- Termination measure: remaining characters, plus one if the current
token has not yet reached end-of-input. -/
def mu (s : PState) : Nat :=
  s.input.length + (if s.tokType = TokenType.eof then 0 else 1)

/-! ### Instrumented character supplier (pushback discipline)

`CppState` models the external `cppGetc`/`cppUngetc` pair with exactly one
slot of pushback capacity.  `cppUngetc` fails (returns `none`) if a
character is pushed back while the slot is already occupied — the
violation the tokenizer must never commit.  The pushed-back value is an
`Option Char` because the source also pushes back the end-of-stream value
(`cppUngetc (c)` with `c <= 0` at the end of identifier accumulation). -/

/-- Supplier state: the single pushback slot and the remaining stream. -/
structure CppState where
  pb : Option (Option Char)
  stream : List Char
deriving DecidableEq, Repr

/-- `cppGetc`: drain the pushback slot first, then the stream; `none`
(end of stream) once the stream is exhausted. -/
def cppGetc : CppState → Option Char × CppState
  | ⟨some v, l⟩ => (v, ⟨none, l⟩)
  | ⟨none, []⟩ => (none, ⟨none, []⟩)
  | ⟨none, c :: l⟩ => (some c, ⟨none, l⟩)

/-- `cppUngetc`: store one value in the pushback slot; fails if the slot
is occupied (more than one character of pushback demanded). -/
def cppUngetc (v : Option Char) : CppState → Option CppState
  | ⟨none, l⟩ => some ⟨some v, l⟩
  | ⟨some _, _⟩ => none

/-- Identifier accumulation against the instrumented supplier; ends with
the single `cppUngetc` of the non-matching value. -/
def scanIdIF : Nat → Option Char → CppState → String → Option (String × CppState)
  | 0, _, _, _ => none
  | f + 1, v, cs, acc =>
    match v with
    | some c =>
      if isIdentChar c then
        (fun p => scanIdIF f p.1 p.2 (acc.push c)) (cppGetc cs)
      else (cppUngetc v cs).map (fun cs2 => (acc, cs2))
    | none => (cppUngetc none cs).map (fun cs2 => (acc, cs2))

/-- `nextToken` against the instrumented supplier. -/
def nextTokenIF : Nat → CppState → String → Option (TokenType × String × CppState)
  | 0, _, _ => none
  | f + 1, cs, v =>
    (fun p =>
      match p.1 with
      | none => some (TokenType.eof, v, p.2)
      | some c =>
        if c.toNat = 0 then some (TokenType.eof, v, p.2)
        else if isPunctChar c then some (TokenType.punct c, v, p.2)
        else if isIdentChar c then
          (scanIdIF f (some c) p.2 "").map (fun q => (TokenType.id, q.1, q.2))
        else nextTokenIF f p.2 v)
    (cppGetc cs)

/-- The characters a plain `List Char` supplier would still deliver from
an instrumented supplier state. -/
def charsOf (cs : CppState) : List Char :=
  match cs.pb with
  | some (some c) => c :: cs.stream
  | some none => []
  | none => cs.stream

/-- Measure of an instrumented supplier state. -/
def cppMeasure (cs : CppState) : Nat :=
  cs.stream.length + (if cs.pb.isSome then 1 else 0)

/-- The plain-model character list corresponding to a fetched value `v`
followed by the rest of the stream (`none` = end of stream reached). -/
def optCons : Option Char → List Char → List Char
  | some c, l => c :: l
  | none, _ => []

/-! ### Concrete inputs used by the claims -/

/-- `enum Color { RED = 0; GREEN = 1; }` -/
def c1inputA : List Char := "enum Color \x7b RED = 0; GREEN = 1; \x7d".toList

/-- `enum E { option allow_alias = true; A = 0; }` -/
def c1inputB : List Char := "enum E \x7b option allow_alias = true; A = 0; \x7d".toList

/-- `repeated foo.Bar.Baz items = 3;` -/
def c2input : List Char := "repeated foo.Bar.Baz items = 3;".toList

/-- `message Foo { message Foo { } }` — an input containing
`message Foo { ... }` whose body redeclares `message Foo`. -/
def c3cexInput : List Char := "message Foo \x7b message Foo \x7b \x7d \x7d".toList

/-- The statement prefix `message Foo { ` (followed by an arbitrary body). -/
def c3pre : List Char := "message Foo \x7b ".toList

/-- `service ServiceName { rpc GetUser (Req) returns (Resp); }` -/
def c4input : List Char :=
  "service ServiceName \x7b rpc GetUser (Req) returns (Resp); \x7d".toList

/-! ## Basic lemmas about the tokenizer -/

/-- Identifier constituents are positive characters (so the `c <= 0` test
of `nextToken` cannot fire on them). -/
theorem isIdentChar_ne_zero (c : Char) (h : isIdentChar c = true) : c.toNat ≠ 0 := by
  intro h0
  have hc : c = Char.ofNat 0 := by
    have h2 : Char.ofNat c.toNat = Char.ofNat 0 := by rw [h0]
    rwa [Char.ofNat_toNat] at h2
  subst hc
  simp [isIdentChar] at h

/-- Punctuation characters are positive characters. -/
theorem isPunctChar_ne_zero (c : Char) (h : isPunctChar c = true) : c.toNat ≠ 0 := by
  intro h0
  have hc : c = Char.ofNat 0 := by
    have h2 : Char.ofNat c.toNat = Char.ofNat 0 := by rw [h0]
    rwa [Char.ofNat_toNat] at h2
  subst hc
  simp [isPunctChar] at h

/-- Punctuation characters are not identifier constituents. -/
theorem isPunctChar_not_ident (c : Char) (h : isPunctChar c = true) : isIdentChar c = false := by
  simp only [isPunctChar, Bool.or_eq_true, decide_eq_true_eq] at h
  rcases h with ((((h | h) | h) | h) | h) <;> subst h <;> decide

/-- `scanId` returns the accumulator extended with the longest identifier
prefix, and the rest of the input (whose head, if any, is the pushed-back
non-matching character). -/
theorem scanId_spec (l : List Char) (acc : String) :
    scanId l acc =
      (String.mk (acc.data ++ l.takeWhile isIdentChar), l.dropWhile isIdentChar) := by
  induction l generalizing acc with
  | nil => simp [scanId]
  | cons c rest ih =>
    simp only [scanId, List.takeWhile_cons, List.dropWhile_cons]
    by_cases h : isIdentChar c = true
    · simp [h, String.push]
      rw [ih ⟨acc.data ++ [c]⟩]
      simp
    · simp [h]

/-- The rest of the input after `scanId` is no longer than the input. -/
theorem scanId_length (l : List Char) (acc : String) :
    (scanId l acc).2.length ≤ l.length := by
  induction l generalizing acc with
  | nil => simp [scanId]
  | cons c rest ih =>
    simp only [scanId]
    split
    · exact le_trans (ih _) (Nat.le_succ _)
    · simp

/-- Each `nextToken` step consumes input: the remaining characters plus
the pending-token weight never exceed the previous input length. -/
theorem nt_measure (l : List Char) (v : String) :
    (nt l v).2.2.length + (if (nt l v).1 = TokenType.eof then 0 else 1) ≤ l.length := by
  induction l with
  | nil => simp [nt]
  | cons c rest ih =>
    simp only [nt]
    split
    · simp
    · split
      · simp
      · split
        · have := scanId_length rest (String.mk [c])
          simp only [List.length_cons]
          simp
          omega
        · exact le_trans ih (by simp)

/-- `nextToken` leaves the `token.value` buffer alone unless it produces
an identifier token. -/
theorem nt_id_or_value (l : List Char) (v : String) :
    (nt l v).1 = TokenType.id ∨ (nt l v).2.1 = v := by
  induction l with
  | nil => right; rfl
  | cons c rest ih =>
    simp only [nt]
    split
    · right; rfl
    · split
      · right; rfl
      · split
        · left; rfl
        · exact ih

/-- The measure never increases across `nextToken`. -/
theorem mu_nextToken_le (s : PState) : mu (nextToken s) ≤ mu s := by
  have h := nt_measure s.input s.tokValue
  have h2 : s.input.length ≤ mu s := Nat.le_add_right _ _
  calc mu (nextToken s)
      = (nt s.input s.tokValue).2.2.length +
        (if (nt s.input s.tokValue).1 = TokenType.eof then 0 else 1) := rfl
    _ ≤ s.input.length := h
    _ ≤ mu s := h2

/-- The measure strictly decreases across `nextToken` whenever the current
token is not yet end-of-input. -/
theorem mu_nextToken_lt (s : PState) (h : s.tokType ≠ TokenType.eof) :
    mu (nextToken s) < mu s := by
  have h1 : mu (nextToken s) ≤ s.input.length := nt_measure s.input s.tokValue
  have h2 : mu s = s.input.length + 1 := by simp [mu, h]
  omega

/-! ## Adequacy of the canonical fuel -/

/-- `skipUntil` succeeds on sufficient fuel; it does not increase the
measure, stops on end-of-input or a stop character, and strictly decreases
the measure when it was not already stopped. -/
theorem skipUntilF_spec (stop : List Char) :
    ∀ (f : Nat) (s : PState), mu s < f →
      ∃ s2, skipUntilF f stop s = some s2 ∧ mu s2 ≤ mu s ∧
        (s2.tokType = TokenType.eof ∨ tokenInSet stop s2.tokType = true) ∧
        (s.tokType ≠ TokenType.eof → tokenInSet stop s.tokType = false → mu s2 < mu s) := by
  intro f
  induction f with
  | zero => intro s h; omega
  | succ f ih =>
    intro s h
    by_cases he : s.tokType = TokenType.eof
    · exact ⟨s, by simp [skipUntilF, he], le_refl _, Or.inl he, fun h1 => absurd he h1⟩
    · by_cases hin : tokenInSet stop s.tokType = true
      · refine ⟨s, by simp [skipUntilF, he, hin], le_refl _, Or.inr hin, ?_⟩
        intro _ h2
        rw [hin] at h2
        cases h2
      · have hlt := mu_nextToken_lt s he
        obtain ⟨s2, hs2, hle, hpost, _⟩ := ih (nextToken s) (by omega)
        refine ⟨s2, ?_, by omega, hpost, fun _ _ => by omega⟩
        simp [skipUntilF, he, hin, hs2]

/-- In the stop set of the enum-body loop only `;` and `}` occur. -/
theorem tokenInSet_semi (t : TokenType) (h : tokenInSet [';', '}'] t = true) :
    t = TokenType.punct ';' ∨ t = TokenType.punct '}' := by
  cases t with
  | eof => simp [tokenInSet] at h
  | id => simp [tokenInSet] at h
  | punct c =>
    simp [tokenInSet, List.contains] at h
    rcases h with h | h
    · left; rw [h]
    · right; rw [h]

/-- The conditional enum-body step either leaves the state alone or
performs one `nextToken`. -/
theorem pecBodyStep_state (en : protobufKind → Bool) (s : PState) :
    (pecBodyStep en s).1 = s ∨ (pecBodyStep en s).1 = nextToken s := by
  simp only [pecBodyStep]
  split
  · right
    split
    · rfl
    · rfl
  · left; rfl

/-- The enum-body loop returns at once on end-of-input or `}`. -/
theorem pecLoopF_exit (en : protobufKind → Bool) (f : Nat) (s : PState)
    (h : s.tokType = TokenType.eof ∨ s.tokType = TokenType.punct '}') (hf : 1 ≤ f) :
    pecLoopF en f s = some (s, []) := by
  cases f with
  | zero => omega
  | succ f => simp only [pecLoopF, if_pos h]

/-- The enum-body loop succeeds on sufficient fuel without increasing the
measure. -/
theorem pecLoopF_spec (en : protobufKind → Bool) :
    ∀ (f : Nat) (s : PState), mu s < f →
      ∃ r, pecLoopF en f s = some r ∧ mu r.1 ≤ mu s := by
  intro f
  induction f with
  | zero => intro s h; omega
  | succ f ih =>
    intro s h
    by_cases hex : s.tokType = TokenType.eof ∨ s.tokType = TokenType.punct '}'
    · exact ⟨(s, []), by simp only [pecLoopF, if_pos hex], le_refl _⟩
    · have hne : s.tokType ≠ TokenType.eof := fun hc => hex (Or.inl hc)
      have hmu1 : mu (pecBodyStep en s).1 ≤ mu s := by
        rcases pecBodyStep_state en s with h1 | h1
        · rw [h1]
        · rw [h1]; exact mu_nextToken_le s
      obtain ⟨s2, hsk, hle2, hpost2, hstr2⟩ :=
        skipUntilF_spec [';', '}'] (f + 1) (pecBodyStep en s).1 (by omega)
      have hones : 1 ≤ mu s := by simp [mu, hne]
      have key : ∃ r, pecLoopF en f
          (if s2.tokType = TokenType.punct ';' then nextToken s2 else s2) = some r ∧
          mu r.1 ≤ mu s := by
        by_cases hsemi : s2.tokType = TokenType.punct ';'
        · have hne2 : s2.tokType ≠ TokenType.eof := by rw [hsemi]; intro hc; cases hc
          have hlt2 := mu_nextToken_lt s2 hne2
          obtain ⟨r, hr, hler⟩ := ih (nextToken s2) (by omega)
          rw [if_pos hsemi]
          exact ⟨r, hr, by omega⟩
        · rw [if_neg hsemi]
          have hf1 : 1 ≤ f := by omega
          rcases hpost2 with he2 | hin2
          · exact ⟨(s2, []), pecLoopF_exit en f s2 (Or.inl he2) hf1, le_trans hle2 hmu1⟩
          · rcases tokenInSet_semi s2.tokType hin2 with hc | hc
            · exact absurd hc hsemi
            · exact ⟨(s2, []), pecLoopF_exit en f s2 (Or.inr hc) hf1, le_trans hle2 hmu1⟩
      obtain ⟨r, hr, hler⟩ := key
      refine ⟨(r.1, (pecBodyStep en s).2 ++ r.2), ?_, hler⟩
      simp only [pecLoopF, if_neg hex, hsk, Option.some_bind, hr, Option.map_some']

/-- `parseEnumConstants` succeeds on sufficient fuel without increasing
the measure. -/
theorem parseEnumConstantsF_spec (en : protobufKind → Bool) (f : Nat) (s : PState)
    (h : mu s ≤ f) :
    ∃ r, parseEnumConstantsF en f s = some r ∧ mu r.1 ≤ mu s := by
  simp only [parseEnumConstantsF]
  by_cases hb : s.tokType = TokenType.punct '{'
  · rw [if_pos hb]
    have hne : s.tokType ≠ TokenType.eof := by rw [hb]; intro hc; cases hc
    have hlt := mu_nextToken_lt s hne
    obtain ⟨r, hr, hle⟩ := pecLoopF_spec en f (nextToken s) (by omega)
    exact ⟨r, hr, by omega⟩
  · rw [if_neg hb]
    exact ⟨(s, []), rfl, le_refl _⟩

/-- The dotted-type loop succeeds on sufficient fuel without increasing
the measure. -/
theorem parseFieldTypeLoopF_spec :
    ∀ (f : Nat) (s : PState), mu s < f →
      ∃ r, parseFieldTypeLoopF f s = some r ∧ mu r.1 ≤ mu s := by
  intro f
  induction f with
  | zero => intro s h; omega
  | succ f ih =>
    intro s h
    have main : ∀ s1 : PState, mu s1 ≤ mu s →
        ∃ r, (if s1.tokType = TokenType.id then
            (fun s2 => if s2.tokType = TokenType.punct '.' then parseFieldTypeLoopF f s2
              else some (s2, true)) (nextToken s1)
          else some (s1, false)) = some r ∧ mu r.1 ≤ mu s := by
      intro s1 hmu1
      by_cases hid : s1.tokType = TokenType.id
      · rw [if_pos hid]
        have hne1 : s1.tokType ≠ TokenType.eof := by rw [hid]; intro hc; cases hc
        have hlt1 := mu_nextToken_lt s1 hne1
        by_cases hdot2 : (nextToken s1).tokType = TokenType.punct '.'
        · obtain ⟨r, hr, hler⟩ := ih (nextToken s1) (by omega)
          refine ⟨r, ?_, by omega⟩
          simp only [hdot2, if_pos, hr]
        · refine ⟨(nextToken s1, true), ?_, ?_⟩
          · simp only [if_neg hdot2]
          · show mu (nextToken s1) ≤ mu s
            omega
      · rw [if_neg hid]
        exact ⟨(s1, false), rfl, hmu1⟩
    by_cases hdot : s.tokType = TokenType.punct '.'
    · have hne : s.tokType ≠ TokenType.eof := by rw [hdot]; intro hc; cases hc
      have hlt := mu_nextToken_lt s hne
      obtain ⟨r, hr, hler⟩ := main (nextToken s) (by omega)
      refine ⟨r, ?_, hler⟩
      simp only [parseFieldTypeLoopF, if_pos hdot]
      exact hr
    · obtain ⟨r, hr, hler⟩ := main s (le_refl _)
      refine ⟨r, ?_, hler⟩
      simp only [parseFieldTypeLoopF, if_neg hdot]
      exact hr

/-- `parseStatement` succeeds on sufficient fuel and strictly decreases
the measure (it always begins by consuming the dispatching keyword). -/
theorem parseStatementF_spec (en : protobufKind → Bool) (f : Nat) (kind : protobufKind)
    (s : PState) (hne : s.tokType ≠ TokenType.eof) (h : mu s ≤ f) :
    ∃ r, parseStatementF en f kind s = some r ∧ mu r.1 < mu s := by
  have hlt0 := mu_nextToken_lt s hne
  have step1 : ∃ r1 : PState × Bool,
      (if kind = protobufKind.field then parseFieldTypeLoopF f (nextToken s)
        else some (nextToken s, true)) = some r1 ∧ mu r1.1 < mu s := by
    by_cases hk : kind = protobufKind.field
    · rw [if_pos hk]
      obtain ⟨r1, hr1, hle1⟩ := parseFieldTypeLoopF_spec f (nextToken s) (by omega)
      exact ⟨r1, hr1, by omega⟩
    · rw [if_neg hk]
      exact ⟨(nextToken s, true), rfl, hlt0⟩
  obtain ⟨r1, hr1, hlt1⟩ := step1
  simp only [parseStatementF, hr1, Option.some_bind]
  by_cases hb : r1.2 = false
  · rw [if_pos hb]
    exact ⟨(r1.1, []), rfl, hlt1⟩
  · rw [if_neg hb]
    by_cases hid : r1.1.tokType = TokenType.id
    · rw [if_pos hid]
      have hne1 : r1.1.tokType ≠ TokenType.eof := by rw [hid]; intro hc; cases hc
      have hlt2 := mu_nextToken_lt r1.1 hne1
      by_cases hke : kind = protobufKind.enum
      · rw [if_pos hke]
        obtain ⟨q, hq, hleq⟩ :=
          parseEnumConstantsF_spec en f (nextToken r1.1) (by omega)
        rw [hq]
        refine ⟨(q.1, createProtobufTag en r1.1.tokValue kind ++ q.2),
          by simp only [Option.map_some'], ?_⟩
        show mu q.1 < mu s
        omega
      · rw [if_neg hke]
        refine ⟨(nextToken r1.1, createProtobufTag en r1.1.tokValue kind), rfl, ?_⟩
        show mu (nextToken r1.1) < mu s
        omega
    · rw [if_neg hid]
      exact ⟨(r1.1, []), rfl, hlt1⟩

/-- Keyword dispatch fires only on identifier tokens. -/
theorem keywordOf_tok (s : PState) (k : protobufKind) (h : keywordOf s = some k) :
    s.tokType = TokenType.id := by
  by_contra hne
  have hall : ∀ kw, ¬ tokenIsKeyword s kw := fun kw hk => hne hk.1
  simp [keywordOf, hall] at h

/-- The dispatch loop succeeds on sufficient fuel, and its final state
carries the end-of-input token. -/
theorem fptLoopF_spec (en : protobufKind → Bool) :
    ∀ (f : Nat) (s : PState), mu s < f →
      ∃ r, fptLoopF en f s = some r ∧ r.1.tokType = TokenType.eof := by
  intro f
  induction f with
  | zero => intro s h; omega
  | succ f ih =>
    intro s h
    by_cases he : s.tokType = TokenType.eof
    · exact ⟨(s, []), by simp [fptLoopF, he], he⟩
    · have step1 : ∃ r1 : PState × List Tag,
          (match keywordOf s with
            | some k => parseStatementF en (f + 1) k s
            | none => some (s, [])) = some r1 ∧
          (mu r1.1 < mu s ∨ r1.1 = s) := by
        cases hk : keywordOf s with
        | some k =>
          obtain ⟨r1, hr1, hlt1⟩ := parseStatementF_spec en (f + 1) k s he (by omega)
          exact ⟨r1, hr1, Or.inl hlt1⟩
        | none => exact ⟨(s, []), rfl, Or.inr rfl⟩
      obtain ⟨r1, hr1, hcase1⟩ := step1
      have hle1 : mu r1.1 ≤ mu s := by
        rcases hcase1 with hx | hx
        · omega
        · rw [hx]
      obtain ⟨s2, hs2, hle2, hpost2, hstr2⟩ :=
        skipUntilF_spec [';', '{', '}'] (f + 1) r1.1 (by omega)
      have hlt3 : mu (nextToken s2) < mu s := by
        have hwk := mu_nextToken_le s2
        rcases hcase1 with hx | hx
        · omega
        · subst hx
          by_cases hin : tokenInSet [';', '{', '}'] r1.1.tokType = true
          · have himm : skipUntilF (f + 1) [';', '{', '}'] r1.1 = some r1.1 := by
              simp [skipUntilF, he, hin]
            rw [himm] at hs2
            injection hs2 with hs2e
            subst hs2e
            exact mu_nextToken_lt r1.1 he
          · have hf : tokenInSet [';', '{', '}'] r1.1.tokType = false := by
              revert hin
              cases tokenInSet [';', '{', '}'] r1.1.tokType <;> simp
            have := hstr2 he hf
            omega
      obtain ⟨q, hq, hqe⟩ := ih (nextToken s2) (by omega)
      refine ⟨(q.1, r1.2 ++ q.2), ?_, hqe⟩
      simp only [fptLoopF, if_neg he, hr1, Option.some_bind, hs2, hq, Option.map_some']


/-! ## The enabled flags only filter the emitted records -/

/-- `createProtobufTag` under any registry state equals the all-enabled
emission filtered by the enabled flags. -/
theorem createProtobufTag_filter (en : protobufKind → Bool) (n : String) (k : protobufKind) :
    createProtobufTag en n k =
      (createProtobufTag allEnabled n k).filter (fun t => en t.kind) := by
  simp only [createProtobufTag, allEnabled, if_true, List.filter]
  cases hk : en k <;> simp [hk]

/-- The enum-body conditional step: the state does not depend on the
enabled flags, and the emission is the all-enabled emission filtered. -/
theorem pecBodyStep_filter (en : protobufKind → Bool) (s : PState) :
    (pecBodyStep en s).1 = (pecBodyStep allEnabled s).1 ∧
    (pecBodyStep en s).2 = (pecBodyStep allEnabled s).2.filter (fun t => en t.kind) := by
  simp only [pecBodyStep]
  split
  · constructor
    · split
      · rfl
      · rfl
    · split
      · exact createProtobufTag_filter en _ _
      · rfl
  · exact ⟨rfl, rfl⟩

/-- The enum-body loop: control flow is unchanged by the enabled flags;
the emitted records are the all-enabled records filtered. -/
theorem pecLoopF_filter (en : protobufKind → Bool) :
    ∀ (f : Nat) (s : PState),
      pecLoopF en f s =
        (pecLoopF allEnabled f s).map (fun r => (r.1, r.2.filter (fun t => en t.kind))) := by
  intro f
  induction f with
  | zero => intro s; rfl
  | succ f ih =>
    intro s
    simp only [pecLoopF]
    split
    · rfl
    · rw [(pecBodyStep_filter en s).1]
      cases hsk : skipUntilF (f + 1) [';', '}'] (pecBodyStep allEnabled s).1 with
      | none => rfl
      | some s2 =>
        simp only [Option.some_bind]
        rw [ih]
        cases hpl : pecLoopF allEnabled f
            (if s2.tokType = TokenType.punct ';' then nextToken s2 else s2) with
        | none => rfl
        | some r =>
          simp only [Option.map_some']
          rw [(pecBodyStep_filter en s).2, List.filter_append]

/-- `parseEnumConstants`: emitted records are the all-enabled records
filtered by the enabled flags. -/
theorem parseEnumConstantsF_filter (en : protobufKind → Bool) (f : Nat) (s : PState) :
    parseEnumConstantsF en f s =
      (parseEnumConstantsF allEnabled f s).map
        (fun r => (r.1, r.2.filter (fun t => en t.kind))) := by
  simp only [parseEnumConstantsF]
  split
  · exact pecLoopF_filter en f (nextToken s)
  · rfl

/-- `parseStatement`: emitted records are the all-enabled records
filtered by the enabled flags. -/
theorem parseStatementF_filter (en : protobufKind → Bool) (f : Nat) (kind : protobufKind)
    (s : PState) :
    parseStatementF en f kind s =
      (parseStatementF allEnabled f kind s).map
        (fun r => (r.1, r.2.filter (fun t => en t.kind))) := by
  simp only [parseStatementF]
  cases hfl : (if kind = protobufKind.field then parseFieldTypeLoopF f (nextToken s)
      else some (nextToken s, true)) with
  | none => rfl
  | some r1 =>
    simp only [Option.some_bind]
    by_cases hb : r1.2 = false
    · simp only [if_pos hb, Option.map_some', List.filter_nil]
    · simp only [if_neg hb]
      by_cases hid : r1.1.tokType = TokenType.id
      · simp only [if_pos hid]
        by_cases hke : kind = protobufKind.enum
        · simp only [if_pos hke]
          rw [parseEnumConstantsF_filter en f (nextToken r1.1)]
          cases hpe : parseEnumConstantsF allEnabled f (nextToken r1.1) with
          | none => rfl
          | some q =>
            simp only [Option.map_some', createProtobufTag_filter en, List.filter_append]
        · simp only [if_neg hke, Option.map_some', createProtobufTag_filter en]
      · simp only [if_neg hid, Option.map_some', List.filter_nil]

/-- The dispatch loop: emitted records are the all-enabled records
filtered by the enabled flags; the final state is unchanged. -/
theorem fptLoopF_filter (en : protobufKind → Bool) :
    ∀ (f : Nat) (s : PState),
      fptLoopF en f s =
        (fptLoopF allEnabled f s).map (fun r => (r.1, r.2.filter (fun t => en t.kind))) := by
  intro f
  induction f with
  | zero => intro s; rfl
  | succ f ih =>
    intro s
    simp only [fptLoopF]
    split
    · rfl
    · cases hk : keywordOf s with
      | some k =>
        simp only
        rw [parseStatementF_filter en (f + 1) k s]
        cases hps : parseStatementF allEnabled (f + 1) k s with
        | none => rfl
        | some r1 =>
          simp only [Option.map_some', Option.some_bind]
          cases hsk : skipUntilF (f + 1) [';', '{', '}'] r1.1 with
          | none => rfl
          | some s2 =>
            simp only [Option.some_bind]
            rw [ih]
            cases hq : fptLoopF allEnabled f (nextToken s2) with
            | none => rfl
            | some q =>
              simp only [Option.map_some']
              rw [List.filter_append]
      | none =>
        simp only [Option.some_bind]
        cases hsk : skipUntilF (f + 1) [';', '{', '}'] s with
        | none => rfl
        | some s2 =>
          simp only [Option.some_bind]
          rw [ih]
          cases hq : fptLoopF allEnabled f (nextToken s2) with
          | none => rfl
          | some q => simp

/-- The parse entry point: under any registry state, the run's final state
equals the all-enabled run's, and its records are the all-enabled records
filtered by the enabled flags. -/
theorem findProtobufTags_filter (en : protobufKind → Bool) (input : List Char) :
    findProtobufTags en input =
      (findProtobufTags allEnabled input).map
        (fun r => (r.1, r.2.filter (fun t => en t.kind))) :=
  fptLoopF_filter en (protoFuel input) (nextToken (initState TokenType.eof input))


/-! ## The tokenizer against the instrumented supplier -/

/-- Identifier accumulation against the instrumented supplier agrees with
the plain model and never violates the one-slot pushback capacity. -/
theorem scanIdIF_spec :
    ∀ (f : Nat) (v : Option Char) (l : List Char) (acc : String),
      (optCons v l).length + 1 ≤ f →
      (scanIdIF f v ⟨none, l⟩ acc).map (fun q => (q.1, charsOf q.2)) =
        some (scanId (optCons v l) acc) := by
  intro f
  induction f with
  | zero => intro v l acc h; omega
  | succ f ih =>
    intro v l acc h
    cases v with
    | none => simp [scanIdIF, cppUngetc, charsOf, optCons, scanId]
    | some c =>
      simp only [scanIdIF]
      by_cases hic : isIdentChar c = true
      · rw [if_pos hic]
        cases l with
        | nil =>
          have hih := ih none [] (acc.push c) (by simp [optCons] at h ⊢; omega)
          simp only [cppGetc]
          simp only [optCons] at hih
          rw [hih]
          simp [optCons, scanId, hic]
        | cons c2 l2 =>
          have hih := ih (some c2) l2 (acc.push c)
            (by simp [optCons, List.length_cons] at h ⊢; omega)
          simp only [cppGetc]
          rw [hih]
          simp [optCons, scanId, hic]
      · rw [if_neg hic]
        simp [cppUngetc, charsOf, optCons, scanId, hic]

/-- `nextToken` against the instrumented supplier (starting with an empty
pushback slot) never violates the pushback capacity and agrees with the
plain tokenizer. -/
theorem nextTokenIF_spec :
    ∀ (f : Nat) (l : List Char) (v : String),
      l.length + 2 ≤ f →
      (nextTokenIF f ⟨none, l⟩ v).map (fun r => (r.1, r.2.1, charsOf r.2.2)) =
        some (nt l v) := by
  intro f
  induction f with
  | zero => intro l v h; omega
  | succ f ih =>
    intro l v h
    cases l with
    | nil => simp [nextTokenIF, cppGetc, charsOf, nt]
    | cons c l2 =>
      simp only [nextTokenIF, cppGetc]
      by_cases h0 : c.toNat = 0
      · rw [if_pos h0]
        simp [charsOf, nt, h0]
      · rw [if_neg h0]
        by_cases hp : isPunctChar c = true
        · rw [if_pos hp]
          simp [charsOf, nt, h0, hp]
        · rw [if_neg hp]
          by_cases hic : isIdentChar c = true
          · rw [if_pos hic]
            have hspec := scanIdIF_spec f (some c) l2 ""
              (by simp [optCons, List.length_cons] at h ⊢; omega)
            cases hx : scanIdIF f (some c) ⟨none, l2⟩ "" with
            | none => rw [hx] at hspec; simp at hspec
            | some q =>
              rw [hx] at hspec
              simp only [Option.map_some', optCons] at hspec
              injection hspec with hspec
              have h1 : q.1 = (scanId (c :: l2) "").1 := by rw [← hspec]
              have h2 : charsOf q.2 = (scanId (c :: l2) "").2 := by rw [← hspec]
              simp only [Option.map_some']
              simp only [nt]
              rw [if_neg h0, if_neg hp, if_pos hic]
              have hpush : scanId (c :: l2) "" = scanId l2 (String.mk [c]) := by
                simp only [scanId, if_pos hic]
                rfl
              rw [hpush] at h1 h2
              rw [h1, h2]
          · rw [if_neg hic]
            have hih := ih l2 v (by simp [List.length_cons] at h ⊢; omega)
            rw [hih]
            simp only [nt]
            rw [if_neg h0, if_neg hp, if_neg hic]

/-- Success of the instrumented tokenizer from a pushback-free state. -/
theorem nextTokenIF_pbnone_isSome (f : Nat) (l : List Char) (v : String)
    (h : l.length + 2 ≤ f) : (nextTokenIF f ⟨none, l⟩ v).isSome = true := by
  have hs := nextTokenIF_spec f l v h
  cases hx : nextTokenIF f ⟨none, l⟩ v with
  | none => rw [hx] at hs; simp at hs
  | some r => rfl

/-- Success of the instrumented identifier scan from a pushback-free state. -/
theorem scanIdIF_pbnone_isSome (f : Nat) (w : Option Char) (l : List Char) (acc : String)
    (h : (optCons w l).length + 1 ≤ f) :
    (scanIdIF f w ⟨none, l⟩ acc).isSome = true := by
  have hs := scanIdIF_spec f w l acc h
  cases hx : scanIdIF f w ⟨none, l⟩ acc with
  | none => rw [hx] at hs; simp at hs
  | some r => rfl

/-- The instrumented tokenizer succeeds from any supplier state — in
particular it never pushes back a second value before fetching. -/
theorem nextTokenIF_isSome (f : Nat) (cs : CppState) (v : String)
    (h : cppMeasure cs + 2 ≤ f) : (nextTokenIF f cs v).isSome = true := by
  cases cs with
  | mk pb stream =>
    cases pb with
    | none =>
      exact nextTokenIF_pbnone_isSome f stream v
        (by simp [cppMeasure] at h; omega)
    | some w =>
      have hm : stream.length + 3 ≤ f := by simp [cppMeasure] at h; omega
      cases f with
      | zero => omega
      | succ f =>
        cases w with
        | none =>
          have heq : nextTokenIF (f + 1) ⟨some none, stream⟩ v =
              some (TokenType.eof, v, ⟨none, stream⟩) := rfl
          rw [heq]
          rfl
        | some c =>
          have heq : nextTokenIF (f + 1) ⟨some (some c), stream⟩ v =
              nextTokenIF (f + 1) ⟨none, c :: stream⟩ v := rfl
          rw [heq]
          exact nextTokenIF_pbnone_isSome (f + 1) (c :: stream) v
            (by simp [List.length_cons]; omega)


/-! ## One dispatch step on a `message Foo {` statement prefix -/

theorem c3_step (en : protobufKind → Bool) (f : Nat) (body : List Char)
    (hen : en protobufKind.message = true) :
    fptLoopF en (f + 1)
        ⟨' ' :: 'F' :: 'o' :: 'o' :: ' ' :: '{' :: ' ' :: body, TokenType.id, "message"⟩ =
      (fptLoopF en f (nextToken ⟨' ' :: body, TokenType.punct '{', "Foo"⟩)).map
        (fun q => (q.1, Tag.mk "Foo" protobufKind.message :: q.2)) := by
  have e1 : nextToken (PState.mk (' ' :: 'F' :: 'o' :: 'o' :: ' ' :: '{' :: ' ' :: body)
      TokenType.id "message") =
      PState.mk (' ' :: '{' :: ' ' :: body) TokenType.id "Foo" := rfl
  have e2 : nextToken (PState.mk (' ' :: '{' :: ' ' :: body) TokenType.id "Foo") =
      PState.mk (' ' :: body) (TokenType.punct '{') "Foo" := rfl
  have e3 : skipUntilF (f + 1) [';', '{', '}']
      (PState.mk (' ' :: body) (TokenType.punct '{') "Foo") =
      some (PState.mk (' ' :: body) (TokenType.punct '{') "Foo") := rfl
  have ek : keywordOf (PState.mk (' ' :: 'F' :: 'o' :: 'o' :: ' ' :: '{' :: ' ' :: body)
      TokenType.id "message") = some protobufKind.message := rfl
  simp only [fptLoopF, ek]
  rw [if_neg (by intro hc; cases hc)]
  simp only [parseStatementF, e1, e2, e3]
  rw [if_neg (by intro hc; cases hc)]
  simp only [Option.some_bind]
  rw [if_pos trivial]
  rw [if_neg (show ¬ (protobufKind.message = protobufKind.enum) by intro hc; cases hc)]
  simp only [e2, createProtobufTag]
  rw [if_pos hen]
  rw [if_neg (show ¬ (true = false) by decide)]
  simp only [Option.some_bind, e3]
  cases hq : fptLoopF en f
      (nextToken (PState.mk (' ' :: body) (TokenType.punct '{') "Foo")) with
  | none => rfl
  | some q => simp


/-- Measure bound used to run the rest of a `message Foo { body }` input. -/
theorem c3_tail_mu (body : List Char) :
    mu (nextToken ⟨' ' :: body, TokenType.punct '{', "Foo"⟩) < body.length + 15 := by
  have h1 := mu_nextToken_le ⟨' ' :: body, TokenType.punct '{', "Foo"⟩
  have h2 : mu ⟨' ' :: body, TokenType.punct '{', "Foo"⟩ = body.length + 2 := by
    simp [mu]
  omega


/-! ## Value preservation and the enum-body emission step -/

/-- When `nextToken` does not produce an identifier, the `token.value`
buffer is untouched. -/
theorem nextToken_value_of_ne_id (s : PState)
    (h : (nextToken s).tokType ≠ TokenType.id) :
    (nextToken s).tokValue = s.tokValue := by
  rcases nt_id_or_value s.input s.tokValue with hx | hx
  · exact absurd hx h
  · exact hx

/-- On an identifier other than `option` followed by `=`, the enum-body
step advances once and emits an enumerator record named by the identifier. -/
theorem pecBodyStep_emit (en : protobufKind → Bool) (s : PState)
    (h1 : s.tokType = TokenType.id) (h2 : s.tokValue ≠ "option")
    (h3 : (nextToken s).tokType = TokenType.punct '=') :
    pecBodyStep en s =
      (nextToken s, createProtobufTag en s.tokValue protobufKind.enumerator) := by
  simp only [pecBodyStep]
  rw [if_pos (show s.tokType = TokenType.id ∧ ¬ tokenIsKeyword s "option" from
    ⟨h1, fun hk => h2 hk.2⟩)]
  show (if (nextToken s).tokType = TokenType.punct '=' then
      (nextToken s, createProtobufTag en (nextToken s).tokValue protobufKind.enumerator)
    else (nextToken s, [])) = _
  rw [if_pos h3]
  rw [nextToken_value_of_ne_id s (by rw [h3]; intro hc; cases hc)]

/-- On the keyword `option` the enum-body step does nothing. -/
theorem pecBodyStep_option (en : protobufKind → Bool) (s : PState)
    (h1 : s.tokType = TokenType.id) (h2 : s.tokValue = "option") :
    pecBodyStep en s = (s, []) := by
  simp only [pecBodyStep]
  rw [if_neg]
  intro hk
  exact hk.2 ⟨h1, h2⟩


/-! ## The claims -/

/-- C1: during enum-body parsing, an identifier token other than `option`
whose following token is `=` makes the loop iteration emit exactly one
EnumConstant record named by that identifier (the rest of the output coming
from the continuation after resynchronisation), and an `option` line makes
the iteration emit nothing; concretely, `enum Color { RED = 0; GREEN = 1; }`
emits exactly the EnumConstant records RED and GREEN, and
`enum E { option allow_alias = true; A = 0; }` emits only A. -/
theorem thm_C1 :
    (∀ (en : protobufKind → Bool) (f : Nat) (s : PState),
      s.tokType = TokenType.id → s.tokValue ≠ "option" →
      (nextToken s).tokType = TokenType.punct '=' →
      en protobufKind.enumerator = true →
      pecLoopF en (f + 1) s =
        (skipUntilF (f + 1) [';', '}'] (nextToken s)).bind (fun s2 =>
          (pecLoopF en f
              (if s2.tokType = TokenType.punct ';' then nextToken s2 else s2)).map
            (fun r => (r.1, Tag.mk s.tokValue protobufKind.enumerator :: r.2)))) ∧
    (∀ (en : protobufKind → Bool) (f : Nat) (s : PState),
      s.tokType = TokenType.id → s.tokValue = "option" →
      pecLoopF en (f + 1) s =
        (skipUntilF (f + 1) [';', '}'] s).bind (fun s2 =>
          pecLoopF en f (if s2.tokType = TokenType.punct ';' then nextToken s2 else s2))) ∧
    (findProtobufTags defaultEnabled c1inputA).map
        (fun r => r.2.filter (fun t => decide (t.kind = protobufKind.enumerator))) =
      some [⟨"RED", protobufKind.enumerator⟩, ⟨"GREEN", protobufKind.enumerator⟩] ∧
    (findProtobufTags defaultEnabled c1inputB).map
        (fun r => r.2.filter (fun t => decide (t.kind = protobufKind.enumerator))) =
      some [⟨"A", protobufKind.enumerator⟩] := by
  refine ⟨?_, ?_, by decide, by decide⟩
  · intro en f s h1 h2 h3 h4
    have hguard : ¬ (s.tokType = TokenType.eof ∨ s.tokType = TokenType.punct '}') := by
      rw [h1]; rintro (hc | hc) <;> cases hc
    have hbs := pecBodyStep_emit en s h1 h2 h3
    simp only [pecLoopF, if_neg hguard, hbs]
    simp [createProtobufTag, h4]
  · intro en f s h1 h2
    have hguard : ¬ (s.tokType = TokenType.eof ∨ s.tokType = TokenType.punct '}') := by
      rw [h1]; rintro (hc | hc) <;> cases hc
    have hbs := pecBodyStep_option en s h1 h2
    simp only [pecLoopF, if_neg hguard, hbs]
    congr 1
    funext s2
    cases hx : pecLoopF en f
        (if s2.tokType = TokenType.punct ';' then nextToken s2 else s2) with
    | none => rfl
    | some r => simp

/-- Witness for C1 at a concrete enum-body state (identifier `RED`
followed by `= 0;`). -/
theorem wit_C1 :
    pecLoopF defaultEnabled 6 ⟨" = 0; \x7d".toList, TokenType.id, "RED"⟩ =
      (skipUntilF 6 [';', '}'] (nextToken ⟨" = 0; \x7d".toList, TokenType.id, "RED"⟩)).bind
        (fun s2 =>
          (pecLoopF defaultEnabled 5
              (if s2.tokType = TokenType.punct ';' then nextToken s2 else s2)).map
            (fun r => (r.1, Tag.mk "RED" protobufKind.enumerator :: r.2))) :=
  thm_C1.1 defaultEnabled 5 _ rfl (by decide) rfl rfl

/-- C2: when the dotted-type loop aborts on a non-identifier (or the name
position holds a non-identifier), the field statement parser returns with
no emission; the input `repeated foo.Bar.Baz items = 3;` emits exactly one
Field record named `items` and nothing for the dotted type path. -/
theorem thm_C2 :
    (∀ (en : protobufKind → Bool) (f : Nat) (s s2 : PState),
      parseFieldTypeLoopF f (nextToken s) = some (s2, false) →
      parseStatementF en f protobufKind.field s = some (s2, [])) ∧
    (∀ (en : protobufKind → Bool) (f : Nat) (s s2 : PState),
      parseFieldTypeLoopF f (nextToken s) = some (s2, true) →
      s2.tokType ≠ TokenType.id →
      parseStatementF en f protobufKind.field s = some (s2, [])) ∧
    (findProtobufTags defaultEnabled c2input).map (fun r => r.2) =
      some [⟨"items", protobufKind.field⟩] := by
  refine ⟨?_, ?_, by decide⟩
  · intro en f s s2 h
    simp [parseStatementF, h]
  · intro en f s s2 h hne
    simp [parseStatementF, h, hne]

/-- Witness for C2: a field statement whose type position holds `;`. -/
theorem wit_C2 :
    parseStatementF defaultEnabled 3 protobufKind.field ⟨[';'], TokenType.id, "repeated"⟩ =
      some (⟨[], TokenType.punct ';', "repeated"⟩, []) :=
  thm_C2.1 defaultEnabled 3 _ _ (by decide)

/-- Counterexample to C3 as stated: the input
`message Foo { message Foo { } }` contains `message Foo { ... }` yet emits
the record (Foo, Message) twice, not exactly once — the scanner does not
track brace nesting, so the body is rescanned as top level. -/
theorem cex_C3 :
    (findProtobufTags defaultEnabled c3cexInput).map
        (fun r => (r.2.filter (fun t => decide (t = Tag.mk "Foo" protobufKind.message))).length) =
      some 2 := by decide

/-- C3 (amended): for every input of the form `message Foo { body }`, a
record (Foo, Message) is emitted, and it is the first record emitted,
regardless of the body contents; it need not be unique, since a body that
itself declares `message Foo` emits the record again (see the
counterexample). -/
theorem thm_C3 (en : protobufKind → Bool) (body : List Char)
    (hen : en protobufKind.message = true) :
    ∃ s2 rest, findProtobufTags en (c3pre ++ body) =
      some (s2, Tag.mk "Foo" protobufKind.message :: rest) := by
  have hlen : protoFuel (c3pre ++ body) = (body.length + 15) + 1 := by
    simp [protoFuel, c3pre, List.length_append]
  have e0 : nextToken (initState TokenType.eof (c3pre ++ body)) =
      PState.mk (' ' :: 'F' :: 'o' :: 'o' :: ' ' :: '{' :: ' ' :: body)
        TokenType.id "message" := rfl
  unfold findProtobufTags
  rw [hlen, e0, c3_step en (body.length + 15) body hen]
  obtain ⟨q, hq, _⟩ := fptLoopF_spec en (body.length + 15)
    (nextToken ⟨' ' :: body, TokenType.punct '{', "Foo"⟩) (c3_tail_mu body)
  rw [hq]
  exact ⟨q.1, q.2, rfl⟩

/-- Witness for C3 with the empty body. -/
theorem wit_C3 : ∃ s2 rest,
    findProtobufTags defaultEnabled (c3pre ++ []) =
      some (s2, Tag.mk "Foo" protobufKind.message :: rest) :=
  thm_C3 defaultEnabled [] rfl

/-- C4: for any enabled-flag state, emission is suppressed exactly at the
emission boundary: the run's final state equals the all-enabled run's and
its record sequence is the all-enabled sequence filtered by the enabled
flags.  With the table defaults (Rpc disabled, Service enabled),
`service ServiceName { rpc GetUser (Req) returns (Resp); }` emits only
(ServiceName, Service); with Rpc enabled, (GetUser, Rpc) additionally
appears, and all other records are identical. -/
theorem thm_C4 :
    (∀ (en : protobufKind → Bool) (input : List Char),
      findProtobufTags en input =
        (findProtobufTags allEnabled input).map
          (fun r => (r.1, r.2.filter (fun t => en t.kind)))) ∧
    defaultEnabled protobufKind.rpc = false ∧
    defaultEnabled protobufKind.service = true ∧
    (findProtobufTags defaultEnabled c4input).map (fun r => r.2) =
      some [⟨"ServiceName", protobufKind.service⟩] ∧
    (findProtobufTags allEnabled c4input).map (fun r => r.2) =
      some [⟨"ServiceName", protobufKind.service⟩, ⟨"GetUser", protobufKind.rpc⟩] :=
  ⟨findProtobufTags_filter, by decide, by decide, by decide, by decide⟩

/-- Counterexample to C5 as stated: a NUL character (outside the
punctuation and identifier classes) is not discarded — `nextToken` yields
the end-of-input token at it (the source treats `c <= 0` as end of
stream), where the claim predicts the identifier `a`. -/
theorem cex_C5 :
    nt [Char.ofNat 0, 'a'] "" = (TokenType.eof, "", ['a']) ∧
    nt ['a'] "" = (TokenType.id, "a", []) := by decide

/-- C5 (amended): `nextToken` classifies totally: end of stream yields the
end-of-input token; `{ } ; . =` yields that punctuation token; an
identifier constituent yields one identifier token holding the maximal
alphanumeric-or-underscore run with the following character pushed back; a
NUL character also yields the end-of-input token (the source treats any
non-positive character as end of stream); every other character is
discarded and scanning continues; input consisting solely of characters
outside these classes yields the end-of-input token and no identifier. -/
theorem thm_C5 :
    (∀ v : String, nt [] v = (TokenType.eof, v, [])) ∧
    (∀ (c : Char) (l : List Char) (v : String), isPunctChar c = true →
      nt (c :: l) v = (TokenType.punct c, v, l)) ∧
    (∀ (c : Char) (l : List Char) (v : String), isIdentChar c = true →
      nt (c :: l) v =
        (TokenType.id, String.mk (c :: l.takeWhile isIdentChar),
          l.dropWhile isIdentChar)) ∧
    (∀ (c : Char) (l : List Char) (v : String), c.toNat = 0 →
      nt (c :: l) v = (TokenType.eof, v, l)) ∧
    (∀ (c : Char) (l : List Char) (v : String), c.toNat ≠ 0 →
      isPunctChar c = false → isIdentChar c = false → nt (c :: l) v = nt l v) ∧
    (∀ (l : List Char) (v : String),
      (∀ c ∈ l, isPunctChar c = false ∧ isIdentChar c = false) →
      (nt l v).1 = TokenType.eof ∧ (nt l v).2.1 = v) := by
  refine ⟨fun v => rfl, ?_, ?_, ?_, ?_, ?_⟩
  · intro c l v h
    simp only [nt]
    rw [if_neg (isPunctChar_ne_zero c h), if_pos h]
  · intro c l v h
    have hp : isPunctChar c = false := by
      cases hx : isPunctChar c
      · rfl
      · rw [isPunctChar_not_ident c hx] at h; cases h
    simp only [nt]
    rw [if_neg (isIdentChar_ne_zero c h),
      if_neg (show ¬ (isPunctChar c = true) by rw [hp]; intro hc; cases hc),
      if_pos h, scanId_spec]
    simp
  · intro c l v h
    simp only [nt]
    rw [if_pos h]
  · intro c l v h0 hp hi
    simp only [nt]
    rw [if_neg h0,
      if_neg (show ¬ (isPunctChar c = true) by rw [hp]; intro hc; cases hc),
      if_neg (show ¬ (isIdentChar c = true) by rw [hi]; intro hc; cases hc)]
  · intro l v h
    induction l with
    | nil => exact ⟨rfl, rfl⟩
    | cons c rest ih =>
      obtain ⟨hp, hi⟩ := h c (List.mem_cons_self c rest)
      by_cases h0 : c.toNat = 0
      · constructor
        · simp only [nt]; rw [if_pos h0]
        · simp only [nt]; rw [if_pos h0]
      · have hrw : nt (c :: rest) v = nt rest v := by
          simp only [nt]
          rw [if_neg h0,
            if_neg (show ¬ (isPunctChar c = true) by rw [hp]; intro hc; cases hc),
            if_neg (show ¬ (isIdentChar c = true) by rw [hi]; intro hc; cases hc)]
        rw [hrw]
        exact ih (fun c2 hc2 => h c2 (List.mem_cons_of_mem c hc2))

/-- Witness for C5 on concrete characters of each class. -/
theorem wit_C5 :
    nt [';'] "x" = (TokenType.punct ';', "x", []) ∧
    nt ['a', 'b', '+'] "x" = (TokenType.id, "ab", ['+']) ∧
    nt ['+'] "x" = nt [] "x" ∧
    (nt ['+', '('] "x").1 = TokenType.eof := by
  refine ⟨thm_C5.2.1 ';' [] "x" (by decide), ?_,
    thm_C5.2.2.2.2.1 '+' [] "x" (by decide) (by decide) (by decide),
    (thm_C5.2.2.2.2.2 ['+', '('] "x" (by decide)).1⟩
  rw [thm_C5.2.2.1 'a' ['b', '+'] "x" (by decide)]
  decide

/-- C6: when a statement keyword is not followed by the expected
identifier, the statement parser returns early with no record and no
error; the input `message` followed by end-of-input emits nothing and the
run terminates normally at the end-of-input token. -/
theorem thm_C6 :
    (∀ (en : protobufKind → Bool) (f : Nat) (kind : protobufKind) (s : PState),
      kind ≠ protobufKind.field → (nextToken s).tokType ≠ TokenType.id →
      parseStatementF en f kind s = some (nextToken s, [])) ∧
    findProtobufTags defaultEnabled ("message".toList) =
      some (⟨[], TokenType.eof, "message"⟩, []) := by
  refine ⟨?_, by decide⟩
  intro en f kind s hk hne
  simp [parseStatementF, hk, hne]

/-- Witness for C6: `message` directly before end-of-input. -/
theorem wit_C6 :
    parseStatementF defaultEnabled 4 protobufKind.message ⟨[], TokenType.id, "message"⟩ =
      some (nextToken ⟨[], TokenType.id, "message"⟩, []) :=
  thm_C6.1 defaultEnabled 4 protobufKind.message _ (by decide) (by decide)

/-- C7: the recognizer is deterministic — the run is a function of the
character sequence and the registry state alone; in particular the
leftover type of the static token record from any previous run does not
affect the result, so two runs from fresh tokenizer states emit the
identical ordered record sequence. -/
theorem thm_C7 (en : protobufKind → Bool) (input : List Char) (t0 t1 : TokenType) :
    fptLoopF en (protoFuel input) (nextToken (initState t0 input)) =
      fptLoopF en (protoFuel input) (nextToken (initState t1 input)) ∧
    fptLoopF en (protoFuel input) (nextToken (initState t0 input)) =
      findProtobufTags en input :=
  ⟨rfl, rfl⟩

/-- C8: on every finite character stream the parse entry point succeeds
within fuel `input.length + 2` (each loop iteration consumes input, per
the measure lemmas) and its final state carries the end-of-input token. -/
theorem thm_C8 (en : protobufKind → Bool) (input : List Char) :
    ∃ r, findProtobufTags en input = some r ∧ r.1.tokType = TokenType.eof := by
  have h2 : mu (initState TokenType.eof input) = input.length := by
    simp [mu, initState]
  have h1 : mu (nextToken (initState TokenType.eof input)) < protoFuel input := by
    have := mu_nextToken_le (initState TokenType.eof input)
    simp only [protoFuel]
    omega
  exact fptLoopF_spec en (protoFuel input) _ h1

/-- C9: against an instrumented supplier whose single pushback slot fails
on a second `ungetChar` before a fetch, the tokenizer never fails — at
most one pushed-back character is ever outstanding — and it computes the
same token as the plain one-list model. -/
theorem thm_C9 :
    (∀ (f : Nat) (cs : CppState) (v : String), cppMeasure cs + 2 ≤ f →
      (nextTokenIF f cs v).isSome = true) ∧
    (∀ (f : Nat) (l : List Char) (v : String), l.length + 2 ≤ f →
      (nextTokenIF f ⟨none, l⟩ v).map (fun r => (r.1, r.2.1, charsOf r.2.2)) =
        some (nt l v)) :=
  ⟨nextTokenIF_isSome, nextTokenIF_spec⟩

/-- Witness for C9 from an occupied-pushback state and a fresh state. -/
theorem wit_C9 :
    (nextTokenIF 10 ⟨some (some 'x'), ['a', 'b']⟩ "").isSome = true ∧
    (nextTokenIF 10 ⟨none, ['a', 'b']⟩ "").map (fun r => (r.1, r.2.1, charsOf r.2.2)) =
      some (nt ['a', 'b'] "") :=
  ⟨thm_C9.1 10 ⟨some (some 'x'), ['a', 'b']⟩ "" (by decide),
    thm_C9.2 10 ['a', 'b'] "" (by decide)⟩

/-- C10: `nextToken` leaves the token value buffer unchanged whenever it
produces a non-identifier token, and consequently the enum-body step,
reading the buffer while the current token is `=`, emits the record named
by the identifier scanned just before. -/
theorem thm_C10 :
    (∀ s : PState, (nextToken s).tokType ≠ TokenType.id →
      (nextToken s).tokValue = s.tokValue) ∧
    (∀ (en : protobufKind → Bool) (s : PState),
      s.tokType = TokenType.id → s.tokValue ≠ "option" →
      (nextToken s).tokType = TokenType.punct '=' →
      (pecBodyStep en s).2 = createProtobufTag en s.tokValue protobufKind.enumerator) := by
  refine ⟨nextToken_value_of_ne_id, ?_⟩
  intro en s h1 h2 h3
  rw [pecBodyStep_emit en s h1 h2 h3]

/-- Witness for C10 on the identifier `A` followed by `= 0`. -/
theorem wit_C10 :
    (nextToken ⟨['=', ' '], TokenType.id, "A"⟩).tokValue = "A" ∧
    (pecBodyStep defaultEnabled ⟨['=', ' ', '0'], TokenType.id, "A"⟩).2 =
      createProtobufTag defaultEnabled "A" protobufKind.enumerator :=
  ⟨thm_C10.1 ⟨['=', ' '], TokenType.id, "A"⟩ (by decide),
    thm_C10.2 defaultEnabled ⟨['=', ' ', '0'], TokenType.id, "A"⟩ rfl (by decide) (by decide)⟩

end Protobuf
